import Mathlib

/-!
Shallow embedding of the WhiteboxTools `NormalizedDifferenceVegetationIndex` tool
(`src/whitebox_tools/src/tools/image_analysis/ndvi.rs`, `run`).

Pixel values (Rust `f64`) are modelled as `ℚ`; the guards in the source compare
with `==`/`!=` and the arithmetic is `+`, `-`, `/`, all of which carry over to `ℚ`
exactly.  Rust strings in the argument-parsing loop are modelled as `List Char`.
The worker pool / mpsc channel is modelled by the list of (row, data) messages
each worker sends, in per-worker order; the collector is a fold over a list of
received messages, which may be an arbitrary permutation of the sent messages.
-/

/-- An input raster band: dimensions, nodata sentinel, and read-only pixel access
(`nir[(row, col)]` in the source). -/
structure Grid where
  rows : ℕ
  cols : ℕ
  nodata : ℚ
  get : ℕ → ℕ → ℚ

/-- Per-pixel computation, ndvi.rs lines 237-248.  The row buffer is initialized
with `nir_nodata` (line 237) and a cell is overwritten only when both inputs are
valid (line 241); the divide-by-zero guard (line 242) tests `z_nir + z_red != 0.0`
— the correction factor is not part of the guard — while the denominator of the
division (line 243) is `z_nir + z_red + correction_factor`. -/
def ndviPixel (zNir zRed nodNir nodRed cf : ℚ) : ℚ :=
  if zNir ≠ nodNir ∧ zRed ≠ nodRed then
    if zNir + zRed ≠ 0 then (zNir - zRed) / (zNir + zRed + cf)
    else nodNir
  else nodNir

/-- One output row, as built by the inner `for col in 0..columns` loop of a worker
(lines 237-248): cell `col` holds `ndviPixel` of the two input pixels at
`(row, col)`. -/
def computeRow (nir red : Grid) (cf : ℚ) (row : ℕ) : List ℚ :=
  (List.range nir.cols).map fun col =>
    ndviPixel (nir.get row col) (red.get row col) nir.nodata red.nodata cf

/-- Rows assigned to worker `tid`: `(0..rows).filter(|r| r % num_procs == tid)`
(line 236). -/
def workerRows (rows W tid : ℕ) : List ℕ :=
  (List.range rows).filter fun r => r % W == tid

/-- Messages sent by worker `tid`, in the order it sends them (line 249):
one `(row, data)` pair per assigned row. -/
def workerMessages (nir red : Grid) (cf : ℚ) (W tid : ℕ) : List (ℕ × List ℚ) :=
  (workerRows nir.rows W tid).map fun r => (r, computeRow nir red cf r)

/-- All messages produced by the pool of `W` workers (lines 230-252). -/
def allMessages (nir red : Grid) (cf : ℚ) (W : ℕ) : List (ℕ × List ℚ) :=
  (List.range W).flatMap (workerMessages nir red cf W)

/-- The output grid as created by `Raster::initialize_using_file(&output_file, &nir)`
(line 226): same shape as the first input, initialized with its nodata value,
not yet populated. -/
def initialOutput (nir : Grid) : List (List ℚ) :=
  List.replicate nir.rows (List.replicate nir.cols nir.nodata)

/-- The collector (lines 254-256): for each received message
`output.set_row_data(data.0, data.1)`. -/
def applyMessages (out : List (List ℚ)) (msgs : List (ℕ × List ℚ)) : List (List ℚ) :=
  msgs.foldl (fun o m => o.set m.1 m.2) out

/-- The fully collected output grid for worker count `W`, with messages consumed
in the order the reference interleaving delivers them.  (Theorems below show the
result is the same for every arrival permutation.) -/
def computeOutput (nir red : Grid) (cf : ℚ) (W : ℕ) : List (List ℚ) :=
  applyMessages (initialOutput nir) (allMessages nir red cf W)

/-- Finite (non-nodata) values of a populated output grid, the population over
which the clip percentiles are taken. -/
def finiteVals (nodata : ℚ) (g : List (List ℚ)) : List ℚ :=
  g.flatten.filter fun v => decide (v ≠ nodata)

/-- Modelled from the spec: the percentile computation used by
`Raster::clip_min_and_max_by_percent`, whose body lives in the `raster` module
and is not part of the supplied sources.  Per spec §4.5 the clipper computes
percentile values over the finite values; this model sorts them and indexes at
`⌊q/100·(n-1)⌋` (clamped into range). -/
def percentile (vs : List ℚ) (q : ℚ) : ℚ :=
  (List.insertionSort (· ≤ ·) vs).getD (Int.toNat ⌊q / 100 * ((vs.length : ℚ) - 1)⌋) 0

/-- Clamp of one value into the closed interval `[lo, hi]`. -/
def clampVal (lo hi v : ℚ) : ℚ := min hi (max lo v)

/-- Modelled from the spec: `Raster::clip_min_and_max_by_percent(p)` (called at
line 268; body not in the supplied sources).  Per spec §4.5 it computes the
`p/2` and `100 - p/2` percentiles of the finite values and clamps every
non-nodata value into that closed interval in place. -/
def clipGrid (nodata p : ℚ) (g : List (List ℚ)) : List (List ℚ) :=
  g.map fun row => row.map fun v =>
    if v = nodata then v
    else clampVal (percentile (finiteVals nodata g) (p / 2))
                  (percentile (finiteVals nodata g) (100 - p / 2)) v

/-- The clipping stage, lines 266-269:
`if clip_amount > 0.0 { output.clip_min_and_max_by_percent(clip_amount); }`. -/
def clipStage (nodata p : ℚ) (g : List (List ℚ)) : List (List ℚ) :=
  if p > 0 then clipGrid nodata p g else g

/-- The dimension-mismatch message of lines 220-221. -/
def dimensionError : String :=
  "The input files must have the same number of rows and columns and spatial extent."

/-- The compute pipeline of `run` after the inputs are loaded: the dimension
check of lines 219-222 runs before the output grid is created (line 226) and
before any worker is spawned (lines 230-252); on success the collected grid
goes through the clipping stage. -/
def ndviRun (nir red : Grid) (clip cf : ℚ) (W : ℕ) : Except String (List (List ℚ)) :=
  if nir.rows ≠ red.rows ∨ nir.cols ≠ red.cols then
    Except.error dimensionError
  else
    Except.ok (clipStage nir.nodata clip (computeOutput nir red cf W))

/-- Progress percentage printed by the collector (line 258):
`(100.0 * row / (rows - 1)) as usize`, modelled with ℕ floor division.
For `rows = 1` the Rust expression is `NaN as usize = 0`, which coincides with
ℕ division by zero. -/
def progressVal (rows r : ℕ) : ℕ := 100 * r / (rows - 1)

/-- Emission filter of lines 259-262: a value is printed only when it differs
from `old_progress`, which is then updated to the printed value. -/
def emitChanges : ℕ → List ℕ → List ℕ
  | _, [] => []
  | old, p :: ps => if p ≠ old then p :: emitChanges p ps else emitChanges old ps

/-- The sequence of progress values printed by the collector loop (lines 254-263),
with `old_progress` starting at 1 (line 196). -/
def collectorEmissions (rows : ℕ) : List ℕ :=
  emitChanges 1 ((List.range rows).map (progressVal rows))

/-! Argument parsing (lines 147-185).  A Rust `String` is modelled as `List Char`. -/

abbrev RStr := List Char

/-- The double-quote character. -/
def dquoteChar : Char := Char.ofNat 34

/-- The single-quote character. -/
def squoteChar : Char := Char.ofNat 39

/-- Lines 148-149: `args[i].replace(""", "").replace(squote, "")` — both kinds
of quotes are removed from the token. -/
def stripQuotes (s : RStr) : RStr :=
  s.filter fun ch => ch != dquoteChar && ch != squoteChar

/-- Line 150: `arg.split("=")`. -/
def splitEq : RStr → List RStr
  | [] => [[]]
  | ch :: rest =>
    if ch = '=' then [] :: splitEq rest
    else
      match splitEq rest with
      | [] => [[ch]]
      | s :: ss => (ch :: s) :: ss

/-- The lower-cased key part of a token: `vec[0].to_lowercase()` applied to the
part before the first `=` of the quote-stripped token. -/
def lowerKey (a : RStr) : RStr :=
  ((splitEq (stripQuotes a)).headD []).map Char.toLower

/-- The value attached to a flag token: `vec[1]` when an `=` was used
(`keyval`), otherwise the next token `args[i+1]` (modelled total: a missing
next token is the empty string where the source would panic on `args[i+1]`). -/
def flagValue (a next : RStr) : RStr :=
  if 1 < (splitEq (stripQuotes a)).length then (splitEq (stripQuotes a)).getD 1 []
  else next

/-- Mutable locals of the parsing loop (lines 137-142). -/
structure ParseState where
  nirFile : RStr
  redFile : RStr
  outputFile : RStr
  clipAmount : ℚ
  osaviMode : Bool
  correctionFactor : ℚ

/-- Initial parser state (lines 137-142): empty paths, `clip_amount = 0.0`,
`osavi_mode = false`, `correction_factor = 0.0`. -/
def initParseState : ParseState :=
  { nirFile := [], redFile := [], outputFile := [], clipAmount := 0,
    osaviMode := false, correctionFactor := 0 }

/-- One iteration of the parsing loop (lines 147-185), an if-else chain on the
lower-cased key.  `pf` models `str::parse::<f64>` for the clip value.  Note the
guard at line 180, `if clip_amount < 0.0 { clip_amount == 0.0; }`, is a
comparison expression with no effect, so the parsed clip value is stored
unchanged; and the `--osavi` branch (lines 181-184) never inspects a value. -/
def parseStep (pf : RStr → ℚ) (a next : RStr) (st : ParseState) : ParseState :=
  if lowerKey a = "-nir".toList ∨ lowerKey a = "--nir".toList then
    { st with nirFile := flagValue a next }
  else if lowerKey a = "-red".toList ∨ lowerKey a = "--red".toList then
    { st with redFile := flagValue a next }
  else if lowerKey a = "-o".toList ∨ lowerKey a = "--output".toList then
    { st with outputFile := flagValue a next }
  else if lowerKey a = "-clip".toList ∨ lowerKey a = "--clip".toList then
    { st with clipAmount := pf (flagValue a next) }
  else if lowerKey a = "-osavi".toList ∨ lowerKey a = "--osavi".toList then
    { st with osaviMode := true, correctionFactor := 16/100 }
  else st

/-- The parsing loop `for i in 0..args.len()` (line 147): every index is
processed, each step seeing the following token as its potential value. -/
def parseLoop (pf : RStr → ℚ) : List RStr → ParseState → ParseState
  | [], st => st
  | a :: rest, st => parseLoop pf rest (parseStep pf a (rest.headD []) st)

/-- Concrete 1×1 bands used by several witnesses: NIR = 0.8, red = 0.2,
sentinel -32768. -/
def bandA : Grid := ⟨1, 1, -32768, fun _ _ => 8/10⟩

def bandB : Grid := ⟨1, 1, -32768, fun _ _ => 2/10⟩

/-- A 1×1 NIR band holding only the nodata sentinel. -/
def bandNodata : Grid := ⟨1, 1, -32768, fun _ _ => -32768⟩

/-- A 2×1 all-nodata NIR band for the concurrency witnesses. -/
def tallNir : Grid := ⟨2, 1, -32768, fun _ _ => -32768⟩

/-- A 2×1 all-nodata red band for the concurrency witnesses. -/
def tallRed : Grid := ⟨2, 1, -32768, fun _ _ => -32768⟩

/-- A 1×1 NIR band with value 0.5 for the OSAVI-guard counterexample. -/
def osaviNir : Grid := ⟨1, 1, -32768, fun _ _ => 1/2⟩

/-- A 1×1 red band with value -0.5 for the OSAVI-guard counterexample. -/
def osaviRed : Grid := ⟨1, 1, -32768, fun _ _ => -1/2⟩

example : ndviPixel (8/10) (2/10) (-32768) (-32768) 0 = 6/10 := by
  norm_num [ndviPixel]

example : ndviPixel (-32768) (1/10) (-32768) (-32768) 0 = -32768 := by
  norm_num [ndviPixel]

example : splitEq "--osavi=false".toList = ["--osavi".toList, "false".toList] := by decide

example : lowerKey "--OSAVI=false".toList = "--osavi".toList := by decide

example : collectorEmissions 3 = [0, 50, 100] := by decide

example : workerRows 5 2 1 = [1, 3] := by decide

/-! Helper lemmas: the collector fold and the multiset of worker messages. -/

theorem applyMessages_cons (out : List (List ℚ)) (m : ℕ × List ℚ)
    (l : List (ℕ × List ℚ)) :
    applyMessages out (m :: l) = applyMessages (out.set m.1 m.2) l := rfl

theorem applyMessages_getElem? (f : ℕ → List ℚ) (l : List (ℕ × List ℚ)) :
    ∀ (out : List (List ℚ)), (∀ m ∈ l, m.2 = f m.1) → ∀ r : ℕ,
      (applyMessages out l)[r]? =
        if r ∈ l.map Prod.fst ∧ r < out.length then some (f r) else out[r]? := by
  induction l with
  | nil => intro out _ r; simp [applyMessages]
  | cons m l ih =>
    intro out h r
    rw [applyMessages_cons, ih _ (fun x hx => h x (List.mem_cons_of_mem _ hx)) r]
    have hm2 : m.2 = f m.1 := h m (List.mem_cons_self _ _)
    simp only [List.length_set, List.getElem?_set, List.map_cons, List.mem_cons]
    by_cases h3 : m.1 = r
    · subst h3
      by_cases h2 : m.1 < out.length
      · by_cases h1 : m.1 ∈ l.map Prod.fst <;> simp [h1, h2, hm2]
      · have hnone : out[m.1]? = none := List.getElem?_eq_none (le_of_not_lt h2)
        simp [h2, hnone]
    · by_cases h1 : r ∈ l.map Prod.fst <;> by_cases h2 : r < out.length <;>
        simp [h1, h2, h3, Ne.symm h3]

theorem allMessages_snd (nir red : Grid) (cf : ℚ) (W : ℕ) :
    ∀ m ∈ allMessages nir red cf W, m.2 = computeRow nir red cf m.1 := by
  intro m hm
  simp only [allMessages, workerMessages, List.mem_flatMap, List.mem_map] at hm
  obtain ⟨tid, -, r, -, rfl⟩ := hm
  rfl

theorem allMessages_keys (nir red : Grid) (cf : ℚ) (W : ℕ) :
    (allMessages nir red cf W).map Prod.fst =
      (List.range W).flatMap (workerRows nir.rows W) := by
  unfold allMessages workerMessages
  rw [List.map_flatMap]
  congr 1
  funext tid
  rw [List.map_map]
  exact List.map_id _

theorem mem_keys_iff (nir red : Grid) (cf : ℚ) (W : ℕ) (hW : 1 ≤ W) (r : ℕ) :
    r ∈ (allMessages nir red cf W).map Prod.fst ↔ r < nir.rows := by
  rw [allMessages_keys]
  simp only [List.mem_flatMap, workerRows, List.mem_filter, List.mem_range, beq_iff_eq]
  constructor
  · rintro ⟨tid, -, hr, -⟩; exact hr
  · intro hr; exact ⟨r % W, Nat.mod_lt r hW, hr, rfl⟩

theorem keys_nodup (nir red : Grid) (cf : ℚ) (W : ℕ) :
    ((allMessages nir red cf W).map Prod.fst).Nodup := by
  rw [allMessages_keys, List.nodup_flatMap]
  refine ⟨fun tid _ => (List.nodup_range _).filter _, ?_⟩
  refine (List.pairwise_lt_range W).imp ?_
  intro a b hab x hxa hxb
  simp only [workerRows, List.mem_filter, beq_iff_eq] at hxa hxb
  omega

theorem keys_perm_range (nir red : Grid) (cf : ℚ) (W : ℕ) (hW : 1 ≤ W) :
    ((allMessages nir red cf W).map Prod.fst).Perm (List.range nir.rows) := by
  rw [List.perm_ext_iff_of_nodup (keys_nodup nir red cf W) (List.nodup_range _)]
  intro a
  rw [mem_keys_iff nir red cf W hW, List.mem_range]

theorem allMessages_length (nir red : Grid) (cf : ℚ) (W : ℕ) (hW : 1 ≤ W) :
    (allMessages nir red cf W).length = nir.rows := by
  have h := (keys_perm_range nir red cf W hW).length_eq
  simpa using h

theorem initialOutput_length (nir : Grid) : (initialOutput nir).length = nir.rows := by
  simp [initialOutput]

theorem computeOutput_getElem? (nir red : Grid) (cf : ℚ) (W : ℕ) (hW : 1 ≤ W)
    (r : ℕ) (hr : r < nir.rows) :
    (computeOutput nir red cf W)[r]? = some (computeRow nir red cf r) := by
  unfold computeOutput
  rw [applyMessages_getElem? (computeRow nir red cf) _ _ (allMessages_snd nir red cf W) r,
    if_pos]
  exact ⟨(mem_keys_iff nir red cf W hW r).2 hr, by rw [initialOutput_length]; exact hr⟩

theorem computeOutput_cell (nir red : Grid) (cf : ℚ) (W r c : ℕ) (hW : 1 ≤ W)
    (hr : r < nir.rows) (hc : c < nir.cols) :
    ((computeOutput nir red cf W).getD r []).getD c 0 =
      ndviPixel (nir.get r c) (red.get r c) nir.nodata red.nodata cf := by
  have h1 : (computeOutput nir red cf W).getD r [] = computeRow nir red cf r := by
    rw [List.getD_eq_getElem?_getD, computeOutput_getElem? nir red cf W hW r hr]
    rfl
  rw [h1]
  simp [computeRow, List.getD_eq_getElem?_getD, List.getElem?_map, List.getElem?_range, hc]

theorem collectedOutput_eq (nir red : Grid) (cf : ℚ) (W : ℕ)
    (l : List (ℕ × List ℚ)) (hl : l.Perm (allMessages nir red cf W)) :
    applyMessages (initialOutput nir) l = computeOutput nir red cf W := by
  apply List.ext_getElem?
  intro r
  have hsnd : ∀ m ∈ l, m.2 = computeRow nir red cf m.1 :=
    fun m hm => allMessages_snd nir red cf W m (hl.subset hm)
  rw [applyMessages_getElem? (computeRow nir red cf) l _ hsnd r]
  unfold computeOutput
  rw [applyMessages_getElem? (computeRow nir red cf) _ _ (allMessages_snd nir red cf W) r]
  have hiff : (r ∈ l.map Prod.fst ∧ r < (initialOutput nir).length) ↔
      (r ∈ (allMessages nir red cf W).map Prod.fst ∧ r < (initialOutput nir).length) :=
    and_congr_left' ((hl.map Prod.fst).mem_iff)
  rw [if_congr hiff rfl rfl]

theorem computeOutput_indep (nir red : Grid) (cf : ℚ) (W₁ W₂ : ℕ)
    (h₁ : 1 ≤ W₁) (h₂ : 1 ≤ W₂) :
    computeOutput nir red cf W₁ = computeOutput nir red cf W₂ := by
  apply List.ext_getElem?
  intro r
  unfold computeOutput
  rw [applyMessages_getElem? (computeRow nir red cf) _ _ (allMessages_snd nir red cf W₁) r,
    applyMessages_getElem? (computeRow nir red cf) _ _ (allMessages_snd nir red cf W₂) r]
  have hiff : (r ∈ (allMessages nir red cf W₁).map Prod.fst ∧ r < (initialOutput nir).length) ↔
      (r ∈ (allMessages nir red cf W₂).map Prod.fst ∧ r < (initialOutput nir).length) := by
    rw [mem_keys_iff nir red cf W₁ h₁, mem_keys_iff nir red cf W₂ h₂]
  rw [if_congr hiff rfl rfl]

/-! Claim theorems. -/

/-- C1 counterexample: in OSAVI mode (c = 0.16) on equally-sized 1×1 grids with
bandA[0,0] = 1/2 and bandB[0,0] = -1/2 (neither nodata, sentinel -32768), the
claim demands the output pixel (z₁ - z₂)/(z₁ + z₂ + c) = 25/4 because
z₁ + z₂ + c = 0.16 ≠ 0, but the code's guard tests z₁ + z₂ == 0 (correction
factor excluded, line 242) and the output pixel is the nodata sentinel -32768
instead. -/
theorem c1_counterexample :
    osaviNir.get 0 0 ≠ osaviNir.nodata ∧
    osaviRed.get 0 0 ≠ osaviRed.nodata ∧
    osaviNir.get 0 0 + osaviRed.get 0 0 + 16/100 ≠ 0 ∧
    ((computeOutput osaviNir osaviRed (16/100) 1).getD 0 []).getD 0 0 = -32768 ∧
    (-32768 : ℚ) ≠ (osaviNir.get 0 0 - osaviRed.get 0 0) /
      (osaviNir.get 0 0 + osaviRed.get 0 0 + 16/100) := by
  refine ⟨by norm_num [osaviNir], by norm_num [osaviRed],
    by norm_num [osaviNir, osaviRed], ?_, by norm_num [osaviNir, osaviRed]⟩
  rw [computeOutput_cell osaviNir osaviRed (16/100) 1 0 0 (by norm_num)
    (by norm_num [osaviNir]) (by norm_num [osaviNir])]
  norm_num [ndviPixel, osaviNir, osaviRed]

/-- C1 (amended): for every pixel (r,c) of equally-sized input grids where
neither input is nodata, the output pixel equals nodataA when
bandA[r,c] + bandB[r,c] == 0 — the correction constant is excluded from the
guard — and otherwise equals (bandA[r,c] - bandB[r,c]) / (bandA[r,c] +
bandB[r,c] + c), with c = 0.0 in standard mode and c = 0.16 in OSAVI mode
(in standard mode this coincides with the original claim). -/
theorem c1_amended_output (nir red : Grid) (cf : ℚ) (W r c : ℕ) (hW : 1 ≤ W)
    (_hrows : nir.rows = red.rows) (_hcols : nir.cols = red.cols)
    (hr : r < nir.rows) (hc : c < nir.cols)
    (h1 : nir.get r c ≠ nir.nodata) (h2 : red.get r c ≠ red.nodata) :
    ((computeOutput nir red cf W).getD r []).getD c 0 =
      if nir.get r c + red.get r c = 0 then nir.nodata
      else (nir.get r c - red.get r c) / (nir.get r c + red.get r c + cf) := by
  rw [computeOutput_cell nir red cf W r c hW hr hc]
  unfold ndviPixel
  rw [if_pos ⟨h1, h2⟩]
  by_cases hz : nir.get r c + red.get r c = 0
  · rw [if_neg (not_not_intro hz), if_pos hz]
  · rw [if_pos hz, if_neg hz]

theorem c1_witness :
    ((computeOutput bandA bandB 0 1).getD 0 []).getD 0 0 =
      if bandA.get 0 0 + bandB.get 0 0 = 0 then bandA.nodata
      else (bandA.get 0 0 - bandB.get 0 0) / (bandA.get 0 0 + bandB.get 0 0 + 0) :=
  c1_amended_output bandA bandB 0 1 0 0 (by norm_num) rfl rfl
    (by norm_num [bandA]) (by norm_num [bandA])
    (by norm_num : ((8:ℚ)/10) ≠ -32768) (by norm_num : ((2:ℚ)/10) ≠ -32768)

/-- C2: for every pixel (r,c), if bandA[r,c] equals nodataA or bandB[r,c]
equals nodataB, then the output pixel equals nodataA — the first grid's
sentinel is reused as the output sentinel (ndvi.rs lines 237, 241). -/
theorem c2_nodata_propagation (nir red : Grid) (cf : ℚ) (W r c : ℕ) (hW : 1 ≤ W)
    (hr : r < nir.rows) (hc : c < nir.cols)
    (h : nir.get r c = nir.nodata ∨ red.get r c = red.nodata) :
    ((computeOutput nir red cf W).getD r []).getD c 0 = nir.nodata := by
  rw [computeOutput_cell nir red cf W r c hW hr hc]
  unfold ndviPixel
  rw [if_neg]
  rintro ⟨h1, h2⟩
  rcases h with h | h
  exacts [h1 h, h2 h]

theorem c2_witness :
    ((computeOutput bandNodata bandB 0 1).getD 0 []).getD 0 0 = bandNodata.nodata :=
  c2_nodata_propagation bandNodata bandB 0 1 0 0 (by norm_num)
    (by norm_num [bandNodata]) (by norm_num [bandNodata]) (Or.inl rfl)

/-- C3: for a pixel where both inputs are non-nodata, the code assigns nodataA
exactly when z_nir + z_red == 0.0: the correction constant is excluded from the
guard (line 242), and the division is performed whenever z_nir + z_red ≠ 0,
for every correction factor — in particular in OSAVI mode (cf = 0.16), where
the actual denominator is z_nir + z_red + 0.16 (line 243). -/
theorem c3_guard_excludes_correction (zNir zRed nodNir nodRed cf : ℚ)
    (h1 : zNir ≠ nodNir) (h2 : zRed ≠ nodRed) :
    (zNir + zRed = 0 → ndviPixel zNir zRed nodNir nodRed cf = nodNir) ∧
    (zNir + zRed ≠ 0 →
      ndviPixel zNir zRed nodNir nodRed cf = (zNir - zRed) / (zNir + zRed + cf)) := by
  unfold ndviPixel
  rw [if_pos ⟨h1, h2⟩]
  constructor
  · intro hz; rw [if_neg (not_not_intro hz)]
  · intro hz; rw [if_pos hz]

theorem c3_witness :
    ndviPixel (1/2) (-1/2) (-32768) (-32768) (16/100) = -32768 :=
  (c3_guard_excludes_correction (1/2) (-1/2) (-32768) (-32768) (16/100)
    (by norm_num) (by norm_num)).1 (by norm_num)

/-- C4: if the two input grids differ in rows or columns, `run` fails with the
invalid-input dimension error (lines 219-222) before the output grid is created
(line 226) and before any worker is spawned (lines 230-252): the result is the
error alone, with no output grid. -/
theorem c4_dimension_mismatch (nir red : Grid) (clip cf : ℚ) (W : ℕ)
    (h : nir.rows ≠ red.rows ∨ nir.cols ≠ red.cols) :
    ndviRun nir red clip cf W = Except.error dimensionError := by
  unfold ndviRun
  rw [if_pos h]

theorem c4_witness :
    ndviRun ⟨1, 1, 0, fun _ _ => 0⟩ ⟨2, 1, 0, fun _ _ => 0⟩ 0 0 1 =
      Except.error dimensionError :=
  c4_dimension_mismatch _ _ 0 0 1 (Or.inl (by decide))

/-- C5: for every pair of inputs, the final output grid is the same for every
worker count W ≥ 1 and every arrival order of the (row, data) messages at the
collector (any permutation of the sent messages); moreover each output row r
holds `computeRow` of row r, which reads only row r of each input band. -/
theorem c5_determinism (nir red : Grid) (cf : ℚ) (W₁ W₂ : ℕ)
    (l₁ l₂ : List (ℕ × List ℚ)) (h₁ : 1 ≤ W₁) (h₂ : 1 ≤ W₂)
    (p₁ : l₁.Perm (allMessages nir red cf W₁))
    (p₂ : l₂.Perm (allMessages nir red cf W₂)) :
    applyMessages (initialOutput nir) l₁ = applyMessages (initialOutput nir) l₂ ∧
    ∀ r < nir.rows,
      (applyMessages (initialOutput nir) l₁)[r]? = some (computeRow nir red cf r) := by
  constructor
  · rw [collectedOutput_eq nir red cf W₁ l₁ p₁, collectedOutput_eq nir red cf W₂ l₂ p₂]
    exact computeOutput_indep nir red cf W₁ W₂ h₁ h₂
  · intro r hr
    rw [collectedOutput_eq nir red cf W₁ l₁ p₁]
    exact computeOutput_getElem? nir red cf W₁ h₁ r hr

theorem c5_witness :
    applyMessages (initialOutput tallNir) (allMessages tallNir tallRed 0 1) =
      applyMessages (initialOutput tallNir) ((allMessages tallNir tallRed 0 2).reverse) :=
  (c5_determinism tallNir tallRed 0 1 2 (allMessages tallNir tallRed 0 1)
    ((allMessages tallNir tallRed 0 2).reverse) (by norm_num) (by norm_num)
    (List.Perm.refl _) (by decide)).1

/-- C6: the collector receives exactly `rows` results in total, each row index
in [0, rows) appearing exactly once among the message keys, and the grid after
the collector fold holds each received row's values at that row's index. -/
theorem c6_collector_invariant (nir red : Grid) (cf : ℚ) (W : ℕ) (hW : 1 ≤ W) :
    (allMessages nir red cf W).length = nir.rows ∧
    (∀ r < nir.rows, ((allMessages nir red cf W).map Prod.fst).count r = 1) ∧
    ∀ r < nir.rows,
      (applyMessages (initialOutput nir) (allMessages nir red cf W))[r]? =
        some (computeRow nir red cf r) := by
  refine ⟨allMessages_length nir red cf W hW, fun r hr => ?_,
    fun r hr => computeOutput_getElem? nir red cf W hW r hr⟩
  exact List.count_eq_one_of_mem (keys_nodup nir red cf W)
    ((mem_keys_iff nir red cf W hW r).2 hr)

theorem c6_witness :
    (allMessages tallNir tallRed 0 2).length = tallNir.rows ∧
    ((allMessages tallNir tallRed 0 2).map Prod.fst).count 0 = 1 :=
  ⟨(c6_collector_invariant tallNir tallRed 0 2 (by norm_num)).1,
   (c6_collector_invariant tallNir tallRed 0 2 (by norm_num)).2.1 0 (by decide)⟩

/-- C7: for every rows and worker count W ≥ 1, row r < rows is assigned to
worker r % W (line 236), and to no other worker: the striped partition is a
disjoint, exhaustive cover of [0, rows). -/
theorem c7_partition (rows W r : ℕ) (hW : 1 ≤ W) (hr : r < rows) :
    r % W < W ∧ r ∈ workerRows rows W (r % W) ∧
    ∀ tid, r ∈ workerRows rows W tid → tid = r % W := by
  refine ⟨Nat.mod_lt r hW, ?_, ?_⟩
  · simp [workerRows, List.mem_filter, List.mem_range, hr]
  · intro tid htid
    simp only [workerRows, List.mem_filter, List.mem_range, beq_iff_eq] at htid
    exact htid.2.symm

theorem c7_witness :
    3 % 2 < 2 ∧ 3 ∈ workerRows 5 2 (3 % 2) :=
  ⟨(c7_partition 5 2 3 (by norm_num) (by norm_num)).1,
   (c7_partition 5 2 3 (by norm_num) (by norm_num)).2.1⟩

/-! Helper lemmas for the progress-emission claim. -/

theorem emitChanges_subset (l : List ℕ) : ∀ old, ∀ v ∈ emitChanges old l, v ∈ l := by
  induction l with
  | nil => intro old v hv; simp [emitChanges] at hv
  | cons p ps ih =>
    intro old v hv
    simp only [emitChanges] at hv
    by_cases h : p ≠ old
    · rw [if_pos h] at hv
      rcases List.mem_cons.1 hv with h1 | h1
      · exact h1 ▸ List.mem_cons_self _ _
      · exact List.mem_cons_of_mem _ (ih p v h1)
    · rw [if_neg h] at hv
      exact List.mem_cons_of_mem _ (ih old v hv)

theorem emitChanges_gt (l : List ℕ) : l.Pairwise (· ≤ ·) →
    ∀ old, (∀ x ∈ l, old ≤ x) → ∀ v ∈ emitChanges old l, old < v := by
  induction l with
  | nil => intro _ old _ v hv; simp [emitChanges] at hv
  | cons p ps ih =>
    intro hs old hle v hv
    obtain ⟨hphead, hps⟩ := List.pairwise_cons.1 hs
    simp only [emitChanges] at hv
    by_cases h : p ≠ old
    · rw [if_pos h] at hv
      have hop : old < p := lt_of_le_of_ne (hle p (List.mem_cons_self _ _)) (Ne.symm h)
      rcases List.mem_cons.1 hv with h1 | h1
      · exact h1 ▸ hop
      · exact lt_trans hop (ih hps p hphead v h1)
    · rw [if_neg h] at hv
      exact ih hps old (fun x hx => hle x (List.mem_cons_of_mem _ hx)) v hv

theorem emitChanges_chain (l : List ℕ) : l.Pairwise (· ≤ ·) →
    ∀ old, List.Chain' (· < ·) (emitChanges old l) := by
  induction l with
  | nil => intro _ old; simp [emitChanges]
  | cons p ps ih =>
    intro hs old
    obtain ⟨hphead, hps⟩ := List.pairwise_cons.1 hs
    simp only [emitChanges]
    by_cases h : p ≠ old
    · rw [if_pos h, List.chain'_cons']
      refine ⟨fun q hq => ?_, ih hps p⟩
      exact emitChanges_gt ps hps p hphead q (List.mem_of_mem_head? hq)
    · rw [if_neg h]
      exact ih hps old

theorem progressMap_pairwise (rows : ℕ) :
    ((List.range rows).map (progressVal rows)).Pairwise (· ≤ ·) := by
  refine List.Pairwise.map _ ?_ (List.pairwise_lt_range rows)
  intro a b hab
  unfold progressVal
  exact Nat.div_le_div_right (Nat.mul_le_mul_left 100 (le_of_lt hab))

theorem progressVal_le (rows r : ℕ) (hr : r < rows) : progressVal rows r ≤ 100 := by
  unfold progressVal
  rcases Nat.eq_zero_or_pos (rows - 1) with h | h
  · rw [h]; simp
  · calc 100 * r / (rows - 1) ≤ 100 * (rows - 1) / (rows - 1) :=
          Nat.div_le_div_right (Nat.mul_le_mul_left 100 (by omega))
      _ = 100 := Nat.mul_div_cancel 100 h

/-- C9: during collection, a progress value is emitted only when the integer
percentage changes from the previously emitted value (the `emitChanges` filter,
lines 259-262): the emitted sequence is strictly increasing (hence monotonically
non-decreasing with no repeats), every emitted value is at most 100, and at most
101 values are ever emitted. -/
theorem c9_progress (rows : ℕ) :
    List.Chain' (· < ·) (collectorEmissions rows) ∧
    (∀ v ∈ collectorEmissions rows, v ≤ 100) ∧
    (collectorEmissions rows).length ≤ 101 := by
  have hchain : List.Chain' (· < ·) (collectorEmissions rows) :=
    emitChanges_chain _ (progressMap_pairwise rows) 1
  have hle : ∀ v ∈ collectorEmissions rows, v ≤ 100 := by
    intro v hv
    have hv' := emitChanges_subset _ 1 v hv
    rw [List.mem_map] at hv'
    obtain ⟨r, hr, rfl⟩ := hv'
    exact progressVal_le rows r (List.mem_range.1 hr)
  refine ⟨hchain, hle, ?_⟩
  have hnd : (collectorEmissions rows).Nodup :=
    (List.chain'_iff_pairwise.1 hchain).imp ne_of_lt
  have hsub : (collectorEmissions rows).toFinset ⊆ Finset.range 101 := by
    intro v hv
    rw [List.mem_toFinset] at hv
    rw [Finset.mem_range]
    exact Nat.lt_succ_of_le (hle v hv)
  calc (collectorEmissions rows).length = (collectorEmissions rows).toFinset.card :=
        (List.toFinset_card_of_nodup hnd).symm
    _ ≤ (Finset.range 101).card := Finset.card_le_card hsub
    _ = 101 := Finset.card_range 101

theorem c9_witness : 0 ∈ collectorEmissions 3 ∧ 0 ≤ 100 :=
  ⟨by decide, (c9_progress 3).2.1 0 (by decide)⟩

/-! Helper lemmas for the --osavi parsing claim. -/

theorem parseStep_osavi (pf : RStr → ℚ) (a next : RStr) (st : ParseState)
    (hk : lowerKey a = "-osavi".toList ∨ lowerKey a = "--osavi".toList) :
    (parseStep pf a next st).osaviMode = true ∧
    (parseStep pf a next st).correctionFactor = 16/100 := by
  unfold parseStep
  rcases hk with h | h <;>
    rw [h, if_neg (by decide), if_neg (by decide), if_neg (by decide),
      if_neg (by decide), if_pos (by decide)] <;>
    exact ⟨rfl, rfl⟩

theorem parseStep_preserves (pf : RStr → ℚ) (a next : RStr) (st : ParseState)
    (h : st.osaviMode = true ∧ st.correctionFactor = 16/100) :
    (parseStep pf a next st).osaviMode = true ∧
    (parseStep pf a next st).correctionFactor = 16/100 := by
  unfold parseStep
  split
  · exact h
  split
  · exact h
  split
  · exact h
  split
  · exact h
  split
  · exact ⟨rfl, rfl⟩
  exact h

theorem parseLoop_preserves (pf : RStr → ℚ) : ∀ (args : List RStr) (st : ParseState),
    st.osaviMode = true ∧ st.correctionFactor = 16/100 →
    (parseLoop pf args st).osaviMode = true ∧
    (parseLoop pf args st).correctionFactor = 16/100 := by
  intro args
  induction args with
  | nil => intro st h; exact h
  | cons a rest ih =>
    intro st h
    exact ih _ (parseStep_preserves pf a (rest.headD []) st h)

theorem parseLoop_osavi_aux (pf : RStr → ℚ) : ∀ (args : List RStr) (st : ParseState),
    (∃ a ∈ args, lowerKey a = "-osavi".toList ∨ lowerKey a = "--osavi".toList) →
    (parseLoop pf args st).osaviMode = true ∧
    (parseLoop pf args st).correctionFactor = 16/100 := by
  intro args
  induction args with
  | nil => intro st h; obtain ⟨a, ha, -⟩ := h; cases ha
  | cons a rest ih =>
    intro st h
    obtain ⟨b, hb, hbk⟩ := h
    rcases List.mem_cons.1 hb with rfl | hbmem
    · exact parseLoop_preserves pf rest _ (parseStep_osavi pf b (rest.headD []) st hbk)
    · exact ih _ ⟨b, hbmem, hbk⟩

/-- C10: for every argument list containing a token whose quote-stripped,
lower-cased key part is `-osavi` or `--osavi` (lines 181-184), the parse enables
OSAVI mode and sets the correction factor to 0.16, regardless of any value
attached to the flag (for example `--osavi=false` still enables the adjusted
formula), since the flag's value is never inspected. -/
theorem c10_osavi_flag (pf : RStr → ℚ) (args : List RStr) (a : RStr)
    (ha : a ∈ args)
    (hk : lowerKey a = "-osavi".toList ∨ lowerKey a = "--osavi".toList) :
    (parseLoop pf args initParseState).osaviMode = true ∧
    (parseLoop pf args initParseState).correctionFactor = 16/100 :=
  parseLoop_osavi_aux pf args initParseState ⟨a, ha, hk⟩

theorem c10_witness :
    (parseLoop (fun _ => 0) ["--OSAVI=false".toList] initParseState).osaviMode = true :=
  (c10_osavi_flag (fun _ => 0) ["--OSAVI=false".toList] "--OSAVI=false".toList
    (List.mem_cons_self _ _) (Or.inr (by decide))).1

/-! Helper lemmas for the clipping claim. -/

theorem mem_finiteVals (nodata : ℚ) (g : List (List ℚ)) (row : List ℚ) (v : ℚ)
    (hrow : row ∈ g) (hv : v ∈ row) (hne : v ≠ nodata) :
    v ∈ finiteVals nodata g := by
  unfold finiteVals
  rw [List.mem_filter]
  exact ⟨List.mem_flatten.2 ⟨row, hrow, hv⟩, by simpa using hne⟩

theorem percentile_le_percentile (vs : List ℚ) (hne : vs ≠ []) (q₁ q₂ : ℚ)
    (h12 : q₁ ≤ q₂) (h100 : q₂ ≤ 100) :
    percentile vs q₁ ≤ percentile vs q₂ := by
  unfold percentile
  have hlen : (List.insertionSort (· ≤ ·) vs).length = vs.length :=
    (List.perm_insertionSort _ vs).length_eq
  have hn : 1 ≤ vs.length := List.length_pos.2 hne
  have hnn : (0:ℚ) ≤ (vs.length : ℚ) - 1 := by
    have h1 : (1:ℚ) ≤ (vs.length : ℚ) := by exact_mod_cast hn
    linarith
  have hx : q₁ / 100 * ((vs.length : ℚ) - 1) ≤ q₂ / 100 * ((vs.length : ℚ) - 1) :=
    mul_le_mul_of_nonneg_right ((div_le_div_iff_of_pos_right (by norm_num)).2 h12) hnn
  have hi12 : Int.toNat ⌊q₁ / 100 * ((vs.length : ℚ) - 1)⌋ ≤
      Int.toNat ⌊q₂ / 100 * ((vs.length : ℚ) - 1)⌋ :=
    Int.toNat_le_toNat (Int.floor_le_floor hx)
  have hq2 : q₂ / 100 * ((vs.length : ℚ) - 1) ≤ (vs.length : ℚ) - 1 := by
    calc q₂ / 100 * ((vs.length : ℚ) - 1) ≤ 1 * ((vs.length : ℚ) - 1) :=
          mul_le_mul_of_nonneg_right ((div_le_one (by norm_num)).2 h100) hnn
      _ = (vs.length : ℚ) - 1 := one_mul _
  have hcast : ((vs.length : ℚ) - 1) = (((vs.length : ℤ) - 1 : ℤ) : ℚ) := by
    push_cast
    ring
  have hfloor : ⌊q₂ / 100 * ((vs.length : ℚ) - 1)⌋ ≤ (vs.length : ℤ) - 1 := by
    calc ⌊q₂ / 100 * ((vs.length : ℚ) - 1)⌋ ≤ ⌊(((vs.length : ℤ) - 1 : ℤ) : ℚ)⌋ :=
          Int.floor_le_floor (hcast ▸ hq2)
      _ = (vs.length : ℤ) - 1 := Int.floor_intCast _
  have hi2lt : Int.toNat ⌊q₂ / 100 * ((vs.length : ℚ) - 1)⌋ <
      (List.insertionSort (· ≤ ·) vs).length := by
    rw [hlen]
    omega
  have hi1lt : Int.toNat ⌊q₁ / 100 * ((vs.length : ℚ) - 1)⌋ <
      (List.insertionSort (· ≤ ·) vs).length := lt_of_le_of_lt hi12 hi2lt
  rw [List.getD_eq_getElem?_getD, List.getD_eq_getElem?_getD,
    List.getElem?_eq_getElem hi1lt, List.getElem?_eq_getElem hi2lt]
  simp only [Option.getD_some]
  have hs : (List.insertionSort (· ≤ ·) vs).Sorted (· ≤ ·) :=
    List.sorted_insertionSort _ vs
  have hget := hs.rel_get_of_le
    (a := ⟨Int.toNat ⌊q₁ / 100 * ((vs.length : ℚ) - 1)⌋, hi1lt⟩)
    (b := ⟨Int.toNat ⌊q₂ / 100 * ((vs.length : ℚ) - 1)⌋, hi2lt⟩)
    (Fin.mk_le_mk.2 hi12)
  simpa [List.get_eq_getElem] using hget

theorem clampVal_mem (lo hi v : ℚ) (h : lo ≤ hi) :
    lo ≤ clampVal lo hi v ∧ clampVal lo hi v ≤ hi :=
  ⟨le_min h (le_max_left _ _), min_le_left _ _⟩

/-- C8 (amended): when clipPercent ≤ 0 (including negative values, which the
effect-free comparison at line 180 leaves unchanged), the output after the
clipping stage is numerically identical to the unclipped result (guard at line
266); when 0 < clipPercent ≤ 100, every non-nodata output value lies within the
closed interval [P(p/2), P(100 - p/2)] of the original value distribution. -/
theorem c8_clip (nodata p : ℚ) (g : List (List ℚ)) :
    (p ≤ 0 → clipStage nodata p g = g) ∧
    (0 < p → p ≤ 100 →
      ∀ row ∈ clipStage nodata p g, ∀ v ∈ row, v ≠ nodata →
        percentile (finiteVals nodata g) (p / 2) ≤ v ∧
        v ≤ percentile (finiteVals nodata g) (100 - p / 2)) := by
  constructor
  · intro hp
    unfold clipStage
    rw [if_neg (not_lt.2 hp)]
  · intro hp hp100 row hrow v hv hvne
    unfold clipStage at hrow
    rw [if_pos hp] at hrow
    unfold clipGrid at hrow
    rw [List.mem_map] at hrow
    obtain ⟨row₀, hrow₀, rfl⟩ := hrow
    rw [List.mem_map] at hv
    obtain ⟨v₀, hv₀, rfl⟩ := hv
    by_cases hz : v₀ = nodata
    · rw [if_pos hz] at hvne
      exact absurd (hz ▸ rfl) hvne
    · rw [if_neg hz] at hvne ⊢
      have hmem : v₀ ∈ finiteVals nodata g := mem_finiteVals nodata g row₀ v₀ hrow₀ hv₀ hz
      have hfne : finiteVals nodata g ≠ [] := List.ne_nil_of_mem hmem
      have hle : percentile (finiteVals nodata g) (p / 2) ≤
          percentile (finiteVals nodata g) (100 - p / 2) :=
        percentile_le_percentile _ hfne _ _ (by linarith) (by linarith)
      exact clampVal_mem _ _ v₀ hle

/-- C8 counterexample: at clip percent p = 200 (which satisfies the claim's
hypothesis clipPercent > 0) on the grid [[0, 100]] with nodata -1, the claim's
interval is [P(p/2), P(100 - p/2)] = [P(100), P(0)] = [100, 0]; the clipped
output is [[0, 0]], whose non-nodata value 0 does not lie within that interval
(P(100) = 100 is not ≤ 0), so the claim as stated fails for clip percentages
above 100. -/
theorem c8_counterexample :
    (0:ℚ) < 200 ∧
    clipStage (-1) 200 [[(0:ℚ), 100]] = [[(0:ℚ), 0]] ∧
    ((0:ℚ) ≠ -1) ∧
    ¬ (percentile (finiteVals (-1) [[(0:ℚ), 100]]) (200/2) ≤ 0) := by
  have hfv : finiteVals (-1) [[(0:ℚ), 100]] = [0, 100] := by decide
  have hlo : percentile [(0:ℚ), 100] (200/2) = 100 := by
    unfold percentile
    norm_num [List.insertionSort, List.orderedInsert]
  have hhi : percentile [(0:ℚ), 100] (100 - 200/2) = 0 := by
    unfold percentile
    norm_num [List.insertionSort, List.orderedInsert]
  refine ⟨by norm_num, ?_, by norm_num, ?_⟩
  · unfold clipStage clipGrid
    rw [if_pos (by norm_num)]
    simp only [List.map_cons, List.map_nil, hfv, hlo, hhi]
    norm_num [clampVal]
  · rw [hfv, hlo]
    norm_num

theorem c8_witness :
    (clipStage (-1) (-5) [[(3:ℚ)]] = [[(3:ℚ)]]) ∧
    (percentile (finiteVals (-1) [[(2:ℚ)]]) (100/2) ≤ 2 ∧
     (2:ℚ) ≤ percentile (finiteVals (-1) [[(2:ℚ)]]) (100 - 100/2)) := by
  have hout : clipStage (-1) 100 [[(2:ℚ)]] = [[(2:ℚ)]] := by
    have hfv : finiteVals (-1) [[(2:ℚ)]] = [2] := by decide
    have hlo : percentile [(2:ℚ)] (100/2) = 2 := by
      unfold percentile
      norm_num [List.insertionSort, List.orderedInsert]
    have hhi : percentile [(2:ℚ)] (100 - 100/2) = 2 := by
      unfold percentile
      norm_num [List.insertionSort, List.orderedInsert]
    unfold clipStage clipGrid
    rw [if_pos (by norm_num)]
    simp only [List.map_cons, List.map_nil, hfv, hlo, hhi]
    norm_num [clampVal]
  refine ⟨(c8_clip (-1) (-5) [[(3:ℚ)]]).1 (by norm_num), ?_⟩
  refine (c8_clip (-1) 100 [[(2:ℚ)]]).2 (by norm_num) (by norm_num) [(2:ℚ)] ?_ 2 ?_
    (by norm_num)
  · rw [hout]
    exact List.mem_singleton.2 rfl
  · exact List.mem_singleton.2 rfl
